import Mathlib

/-!
Shallow embedding of `woj::bitset` and `woj::dynamic_bitset` from
`src/include/woj/bitset.hpp`, together with proofs settling the claims
C1..C10 about them.

Modelling conventions:
* A block (`BlockType`, an unsigned integer of width `W` bits) is a `Nat`;
  wherever the C++ stores a value into a block we reduce `% 2^W`, matching
  machine truncation on assignment.
* The storage array `m_data` is a `List Nat` of the blocks.
* `size_t` arithmetic that can wrap is taken modulo `U64 = 2^64`.
* Functions that can run into C++ undefined behaviour on the inputs we
  study (negative shift amounts, out-of-bounds bulk writes) return an
  `Option`, with `none` marking the undefined execution.
-/

namespace Woj

/-- `2^64`, the modulus of `size_t` arithmetic. -/
def U64 : Nat := 2 ^ 64

/-- `m_storage_size = Size / W + !!(Size % W)`: number of blocks backing a
`Size`-bit bitset with `W`-bit blocks (both containers compute it this way). -/
def storageSize (W Size : Nat) : Nat := Size / W + (if Size % W = 0 then 0 else 1)

/-- `m_full_storage_size = Size / W`: number of fully used blocks. -/
def fullStorageSize (W Size : Nat) : Nat := Size / W

/-- `m_partial_size = Size % W`: number of valid bits in the trailing block. -/
def partSize (W Size : Nat) : Nat := Size % W

/-- C++ `~x` on a `W`-bit unsigned block holding `x`. -/
def cppNot (W x : Nat) : Nat := (2 ^ W - 1) ^^^ (x % 2 ^ W)

/-- `bitset::test(index)`: `m_data[index / W] & (BlockType{1} << index % W)`
converted to `bool`. -/
def test (W : Nat) (data : List Nat) (index : Nat) : Bool :=
  Nat.testBit (data.getD (index / W) 0) (index % W)

/-- `bitset::set(index)`: `m_data[index / W] |= BlockType{1} << index % W`. -/
def set (W : Nat) (data : List Nat) (index : Nat) : List Nat :=
  data.set (index / W) ((data.getD (index / W) 0 ||| 1 <<< (index % W)) % 2 ^ W)

/-- `bitset::clear(index)`: `m_data[index / W] &= ~(BlockType{1} << index % W)`. -/
def clear (W : Nat) (data : List Nat) (index : Nat) : List Nat :=
  data.set (index / W) (data.getD (index / W) 0 &&& cppNot W (1 <<< (index % W)))

/-- `bitset::set(index, value)`: branches on `value` and performs the same
read-modify-write as `set`/`clear`. -/
def set_value (W : Nat) (data : List Nat) (index : Nat) (value : Bool) : List Nat :=
  if value then set W data index else clear W data index

/-- `bitset::flip(index)`: `m_data[index / W] ^= BlockType{1} << index % W`. -/
def flip (W : Nat) (data : List Nat) (index : Nat) : List Nat :=
  data.set (index / W) ((data.getD (index / W) 0 ^^^ 1 <<< (index % W)) % 2 ^ W)

/-- The inner loop of `count()` on one block: `while (j) { j &= j - 1; ++count; }`. -/
def popcnt (j : Nat) : Nat :=
  if h : j = 0 then 0 else popcnt (j &&& (j - 1)) + 1
termination_by j
decreasing_by
  have hle : j &&& (j - 1) ≤ j - 1 := Nat.and_le_right
  omega

/-- `count()`: the per-block popcount loop summed over all `m_storage_size` blocks,
trailing bits of the last block included. -/
def count (data : List Nat) : Nat := (data.map popcnt).sum

/-- `set()` (fill all): `memset(m_data, 255u, m_storage_size * sizeof(BlockType))`,
which makes every block all-ones. -/
def setAll (W : Nat) (data : List Nat) : List Nat := data.map fun _ => 2 ^ W - 1

/-- `clear()` (fill all): `memset(m_data, 0, m_storage_size * sizeof(BlockType))`. -/
def clearAll (data : List Nat) : List Nat := data.map fun _ => 0

/-- `bitset::operator==` (same type and size): full blocks must match exactly,
then the trailing block is compared under the mask `(1 << m_partial_size) - 1`. -/
def beq_op (W Size : Nat) (a b : List Nat) : Bool :=
  (((List.range (fullStorageSize W Size)).all fun i => a.getD i 0 == b.getD i 0) &&
    (if partSize W Size ≠ 0 then
        ((a.getD (storageSize W Size - 1) 0 &&& ((1 <<< partSize W Size) - 1))
          == (b.getD (storageSize W Size - 1) 0 &&& ((1 <<< partSize W Size) - 1)))
      else true))

/-- `bitset::operator!=` (same type and size), as written in the source: the loop
body is `if (m_data[i] == other.m_data[i]) return false;`, so it returns `true`
only when every full block differs and the masked trailing blocks differ. -/
def bne_op (W Size : Nat) (a b : List Nat) : Bool :=
  (((List.range (fullStorageSize W Size)).all fun i => !(a.getD i 0 == b.getD i 0)) &&
    (if partSize W Size ≠ 0 then
        !((a.getD (storageSize W Size - 1) 0 &&& ((1 <<< partSize W Size) - 1))
          == (b.getD (storageSize W Size - 1) 0 &&& ((1 <<< partSize W Size) - 1)))
      else true))

/-- `bitset::operator<<`: out-of-place left shift. Destination block `i` takes
source block `i - block_shift` shifted by `bit_shift`, OR the carry from source
block `i - block_shift - 1` (skipped when `bit_shift == 0`); out-of-range source
indices contribute zero. -/
def shl (W : Nat) (data : List Nat) (shift : Nat) : List Nat :=
  (List.range data.length).map fun i =>
    let bs := shift / W
    let bsh := shift % W
    let base : Nat := if bs ≤ i then (data.getD (i - bs) 0 <<< bsh) % 2 ^ W else 0
    if 0 < bsh ∧ bs + 1 ≤ i then
      (base ||| data.getD (i - bs - 1) 0 >>> (W - bsh)) % 2 ^ W
    else base

/-- `bitset::operator<<=`: the same per-block update as `operator<<`, but applied
in place for `i = 0, 1, ...`, so each step reads the partially overwritten array. -/
def shlAssign (W : Nat) (data : List Nat) (shift : Nat) : List Nat :=
  (List.range data.length).foldl
    (fun d i =>
      let bs := shift / W
      let bsh := shift % W
      let base : Nat := if bs ≤ i then (d.getD (i - bs) 0 <<< bsh) % 2 ^ W else 0
      d.set i (if 0 < bsh ∧ bs + 1 ≤ i then
          (base ||| d.getD (i - bs - 1) 0 >>> (W - bsh)) % 2 ^ W
        else base))
    data

/-- The bit loop `for (i = lo; i < hi; ++i) block |= BlockType{1} << i` used by
`set_range` on the boundary blocks (8-bit blocks). -/
def orBitsRange (block lo hi : Nat) : Nat :=
  (List.range' lo (hi - lo) 1).foldl (fun b i => (b ||| 1 <<< i) % 2 ^ 8) block

/-- `memset(m_data + start, 255u, len)` over an array of 8-bit blocks: byte `i`
of the write is block `start + i`. -/
def memset255 (data : List Nat) (start len : Nat) : List Nat :=
  (List.range' start len 1).foldl (fun d i => d.set i 255) data

/-- `dynamic_bitset<uint8_t>::set_range(begin, end)`. Boundary blocks are
handled bit-by-bit (the leading one only when `begin % 8 != 0`, the trailing
one only when `end % 8 != 0` and the range spans two blocks), then
`memset(m_data + begin/8 + to_add, 255u, (end-begin)/8*sizeof(BlockType) - to_sub)`
fills whole bytes. The byte count is `size_t` arithmetic, so subtracting
`to_sub = 1` from a zero quotient wraps around; a bulk write past the end of the
allocation is undefined behaviour and is returned as `none`. -/
def set_range8 (data : List Nat) (b e : Nat) : Option (List Nat) :=
  let toAdd : Nat := if b % 8 = 0 then 0 else 1
  let d1 := if b % 8 ≠ 0 then
      data.set (b / 8) (orBitsRange (data.getD (b / 8) 0) (b % 8)
        (if b / 8 = e / 8 then e % 8 else 8))
    else data
  let toSub : Nat := if e % 8 ≠ 0 ∧ b / 8 ≠ e / 8 then 1 else 0
  let d2 := if e % 8 ≠ 0 ∧ b / 8 ≠ e / 8 then
      d1.set (e / 8) (orBitsRange (d1.getD (e / 8) 0) 0 (e % 8))
    else d1
  let len : Nat := ((e - b) / 8 + U64 - toSub) % U64
  if b / 8 + toAdd + len ≤ d2.length then some (memset255 d2 (b / 8 + toAdd) len)
  else none

/-- State of a `woj::dynamic_bitset`: `m_part_size` models the `uint8_t` member
`m_partial_size`, `m_storage_size` and `m_size` are `size_t` (wrapping modulo
`U64`), and `m_data` is `none` exactly when the pointer is null. -/
structure dynamic_bitset where
  m_part_size : Nat
  m_storage_size : Nat
  m_size : Nat
  m_data : Option (List Nat)
deriving DecidableEq

/-- The size constructor `dynamic_bitset(const size_type& size)`: sets
`m_partial_size = size % W`, `m_storage_size = size / W + !!m_partial_size`,
`m_size = size`, allocates `m_storage_size` blocks and zeroes them via
`clear()`. -/
def dynamic_bitset.ofSize (W n : Nat) : dynamic_bitset :=
  { m_part_size := n % W
    m_storage_size := n / W + (if n % W = 0 then 0 else 1)
    m_size := n
    m_data := some (List.replicate (n / W + (if n % W = 0 then 0 else 1)) 0) }

/-- `dynamic_bitset::test(index)`: same read as the fixed bitset. -/
def dynamic_bitset.test (W : Nat) (s : dynamic_bitset) (index : Nat) : Bool :=
  Nat.testBit ((s.m_data.getD []).getD (index / W) 0) (index % W)

/-- `dynamic_bitset::count()`: the same per-block popcount loop over
`m_storage_size` blocks. -/
def dynamic_bitset.count (s : dynamic_bitset) : Nat :=
  ((s.m_data.getD []).map popcnt).sum

/-- `dynamic_bitset::none()`: whole-block test on the full blocks
(`m_storage_size - !!m_partial_size` of them), then the `m_partial_size` valid
bits of block `m_size / W`. -/
def dynamic_bitset.noneOp (W : Nat) (s : dynamic_bitset) : Bool :=
  (((List.range (s.m_storage_size - (if s.m_part_size = 0 then 0 else 1))).all
      fun i => (s.m_data.getD []).getD i 0 == 0) &&
    (if s.m_part_size ≠ 0 then
        (List.range s.m_part_size).all
          fun i => !Nat.testBit ((s.m_data.getD []).getD (s.m_size / W) 0) i
      else true))

/-- `dynamic_bitset::push_back(value)`. When the old size is block-aligned the
source sets `m_partial_size = 0`, grows the array by one zeroed block, and then
writes the bit at offset `m_partial_size - 1`; `m_partial_size` is `uint8_t`, so
the shift amount promotes to the `int` value `-1` — undefined behaviour,
returned as `none`. Otherwise `++m_partial_size` and the bit is written at
offset `m_partial_size - 1` of the last block. -/
def dynamic_bitset.push_back (W : Nat) (s : dynamic_bitset) (value : Bool) :
    Option dynamic_bitset :=
  if s.m_size % W = 0 then
    none
  else
    let pt' := (s.m_part_size + 1) % 256
    if pt' = 0 then none
    else
      let data := s.m_data.getD []
      let bi := s.m_storage_size - 1
      let blk := data.getD bi 0
      some { m_part_size := pt'
             m_storage_size := s.m_storage_size
             m_size := (s.m_size + 1) % U64
             m_data := some (data.set bi
               (if value then (blk ||| 1 <<< (pt' - 1)) % 2 ^ W
                else blk &&& cppNot W (1 <<< (pt' - 1)))) }

/-- `dynamic_bitset::pop_back()`: `--m_size` first; when the decremented size is
block-aligned the source shrinks the array by one block (releasing it and
nulling the pointer when the decremented size is zero) **and decrements
`m_size` a second time**. All `size_t` steps wrap modulo `U64`. -/
def dynamic_bitset.pop_back (W : Nat) (s : dynamic_bitset) : dynamic_bitset :=
  let size1 := (s.m_size + (U64 - 1)) % U64
  if size1 % W = 0 then
    let storage' := (s.m_storage_size + (U64 - 1)) % U64
    if size1 ≠ 0 then
      { m_part_size := 0
        m_storage_size := storage'
        m_size := (size1 + (U64 - 1)) % U64
        m_data := some ((s.m_data.getD []).take storage') }
    else
      { m_part_size := 0
        m_storage_size := storage'
        m_size := (size1 + (U64 - 1)) % U64
        m_data := none }
  else
    { s with m_part_size := (s.m_part_size + 255) % 256, m_size := size1 }

/-- `dynamic_bitset::pop_back_block()`: `m_size = --m_storage_size * W`,
`m_partial_size = 0`, then `new BlockType[m_storage_size]` and a copy of the
retained blocks. The allocation happens even when `m_storage_size` reaches `0`
(a zero-length `new[]` returns a non-null pointer), so `m_data` stays non-null. -/
def dynamic_bitset.pop_back_block (W : Nat) (s : dynamic_bitset) : dynamic_bitset :=
  let storage' := (s.m_storage_size + (U64 - 1)) % U64
  { m_part_size := 0
    m_storage_size := storage'
    m_size := (storage' * W) % U64
    m_data := some ((s.m_data.getD []).take storage') }

/-- The inner loop shared by `_from_string` and `_from_other`:
`for (j = ...; j < B; ++j) { if (i*B + j >= C) return; <body>; }`, with
`fuel = B - j` iterations remaining. The `Bool` is `true` when the early
`return` fired, which also terminates the enclosing outer loop. -/
def innerLoop (f : List Nat → Nat → Nat → List Nat) (B C i : Nat) :
    Nat → Nat → List Nat → List Nat × Bool
  | 0, _, d => (d, false)
  | fuel + 1, j, d =>
    if C ≤ i * B + j then (d, true)
    else innerLoop f B C i fuel (j + 1) (f d i j)

/-- The outer loop shared by `_from_string` and `_from_other`:
`for (i = ...; i < A; ++i) <inner loop>;` with `fuel = A - i` iterations
remaining; it stops as soon as the inner loop's early `return` fires. -/
def outerLoop (f : List Nat → Nat → Nat → List Nat) (B C : Nat) :
    Nat → Nat → List Nat → List Nat
  | 0, _, d => d
  | fuel + 1, i, d =>
    match innerLoop f B C i B 0 d with
    | (d', true) => d'
    | (d', false) => outerLoop f B C fuel (i + 1) d'

/-- The string constructor `bitset(str, set_chr)`: zero-initializes `m_data{0}`
and runs `_from_string`, whose loops set
`m_data[i] |= (str[i*W + j] == set_chr) ? BlockType{1} << j : 0` for every
block `i` and offset `j`, returning as soon as `i*W + j` reaches the string
length. -/
def from_string (W Size : Nat) (s : List Char) (setChr : Char) : List Nat :=
  outerLoop
    (fun d i j => d.set i ((d.getD i 0 |||
        (if s.getD (i * W + j) (Char.ofNat 0) = setChr then 1 <<< j else 0)) % 2 ^ W))
    W s.length (storageSize W Size) 0 (List.replicate (storageSize W Size) 0)

/-- `bitset::to_string(set_chr, rst_chr)`, as written in the source: the result
buffer is `basic_string(Size + 1, 0)` — one element longer than the bit count,
its last element the NUL character. Blocks below
`m_storage_size - !!m_partial_size` are emitted in full; then, when the storage
is non-empty, character `(m_storage_size-1)*W + i` is taken from
`m_data[i] & (BlockType{1} << i)` for `i < m_partial_size` (the source indexes
`m_data[i]`, not the last block). -/
def to_string (W Size : Nat) (data : List Nat) (setChr rstChr : Char) : List Char :=
  let storage := storageSize W Size
  let pt := partSize W Size
  let res0 : List Char := List.replicate (Size + 1) (Char.ofNat 0)
  let res1 := (List.range (storage - (if pt = 0 then 0 else 1))).foldl
    (fun r i => (List.range W).foldl
      (fun r j => r.set (i * W + j)
        (if Nat.testBit (data.getD i 0) j then setChr else rstChr)) r) res0
  if storage ≠ 0 then
    (List.range pt).foldl
      (fun r i => r.set ((storage - 1) * W + i)
        (if Nat.testBit (data.getD i 0) i then setChr else rstChr)) res1
  else res1

/-- Loop body shape of `_from_other`: `m_data[i] |= <contribution of (i, j)>`. -/
def orBody (g : Nat → Nat → Nat) : List Nat → Nat → Nat → List Nat :=
  fun d i j => d.set i (d.getD i 0 ||| g i j)

/-- `bitset::_from_other<OtherBlockType, OtherSize>`, widening case
(`sizeof(BlockType) > sizeof(OtherBlockType)`, `diff` source blocks per
destination block): the loops run
`m_data[i] |= BlockType(other.m_data[i*diff + j]) << j * other.m_block_size`
and return as soon as the source index reaches `other.m_storage_size`
(`src.length` here). The shifted value always fits in the `diff * Wsrc`-bit
destination block because source blocks are `Wsrc`-bit values, so the store
truncates nothing. The destination is the converting constructor's
zero-initialized `m_data{ 0 }`. -/
def from_other_widen (Wsrc diff : Nat) (src : List Nat) (dstLen : Nat) : List Nat :=
  outerLoop (orBody fun i j => src.getD (i * diff + j) 0 <<< (j * Wsrc))
    diff src.length dstLen 0 (List.replicate dstLen 0)

/-- Modelled from the spec: the packing formula of §4.8 — destination block `i`
is the OR of the in-range source blocks `i*diff + j` for `j < diff`, source
block `j` contributing its bits at offset `j * Wsrc`; contributions past the
end of the source are absent, leaving the block at its prior (zero) value. -/
def packWiden (Wsrc diff : Nat) (src : List Nat) (i : Nat) : Nat :=
  (List.range diff).foldl
    (fun acc j => if i * diff + j < src.length then
        acc ||| src.getD (i * diff + j) 0 <<< (j * Wsrc)
      else acc) 0

end Woj

namespace Woj

theorem getD_set_self {l : List Nat} {i : Nat} (h : i < l.length) (a d : Nat) :
    (l.set i a).getD i d = a := by
  induction l generalizing i with
  | nil => simp at h
  | cons x xs ih =>
    cases i with
    | zero => rfl
    | succ n => exact ih (by simpa using h)

theorem getD_set_ne {i j : Nat} (h : i ≠ j) (l : List Nat) (a d : Nat) :
    (l.set i a).getD j d = l.getD j d := by
  induction l generalizing i j with
  | nil => simp
  | cons x xs ih =>
    cases i with
    | zero =>
      cases j with
      | zero => exact absurd rfl h
      | succ m => rfl
    | succ n =>
      cases j with
      | zero => rfl
      | succ m => exact ih (fun hc => h (by omega))

/-- Bit addressing is injective: same block and same offset forces the same index. -/
theorem bit_index_inj {W i j : Nat} (hW : 0 < W) (hd : i / W = j / W)
    (hm : i % W = j % W) : i = j := by
  have hi := Nat.div_add_mod i W
  have hj := Nat.div_add_mod j W
  rw [hd, hm] at hi
  omega

/-- A `Size`-bit bitset covers bit index `i < Size`: its block index is in range. -/
theorem div_lt_storageSize {W Size i : Nat} (hW : 0 < W) (hi : i < Size) :
    i / W < storageSize W Size := by
  rw [Nat.div_lt_iff_lt_mul hW]
  have h1 := Nat.div_add_mod Size W
  have h2 : Size % W < W := Nat.mod_lt _ hW
  have h3 : Size / W * W = W * (Size / W) := Nat.mul_comm _ _
  unfold storageSize
  rcases eq_or_ne (Size % W) 0 with h | h
  · rw [if_pos h]
    have h4 : (Size / W + 0) * W = Size / W * W := by ring
    omega
  · rw [if_neg h]
    have h4 : (Size / W + 1) * W = Size / W * W + W := by ring
    omega

theorem test_set_self {W : Nat} (hW : 0 < W) (data : List Nat) {i : Nat}
    (hlen : i / W < data.length) : test W (set W data i) i = true := by
  unfold test set
  rw [getD_set_self hlen]
  have hoff : i % W < W := Nat.mod_lt _ hW
  simp [Nat.testBit_mod_two_pow, Nat.testBit_or, Nat.one_shiftLeft,
    Nat.testBit_two_pow_self, hoff]

theorem test_clear_self {W : Nat} (hW : 0 < W) (data : List Nat) {i : Nat}
    (hlen : i / W < data.length) : test W (clear W data i) i = false := by
  unfold test clear cppNot
  rw [getD_set_self hlen]
  have hoff : i % W < W := Nat.mod_lt _ hW
  have hlt : 1 <<< (i % W) < 2 ^ W := by
    rw [Nat.one_shiftLeft]
    exact Nat.pow_lt_pow_right (by omega) hoff
  rw [Nat.mod_eq_of_lt hlt]
  simp [Nat.testBit_and, Nat.testBit_xor, Nat.testBit_two_pow_sub_one,
    Nat.one_shiftLeft, Nat.testBit_two_pow_self, hoff]

theorem test_flip_self {W : Nat} (hW : 0 < W) (data : List Nat) {i : Nat}
    (hlen : i / W < data.length) : test W (flip W data i) i = !test W data i := by
  unfold test flip
  rw [getD_set_self hlen]
  have hoff : i % W < W := Nat.mod_lt _ hW
  simp [Nat.testBit_mod_two_pow, Nat.testBit_xor, Nat.one_shiftLeft,
    Nat.testBit_two_pow_self, hoff, Bool.xor_comm]

theorem test_set_other {W : Nat} (hW : 0 < W) (data : List Nat) {i j : Nat}
    (hne : j ≠ i) (hleni : i / W < data.length) :
    test W (set W data i) j = test W data j := by
  unfold test set
  have hoffj : j % W < W := Nat.mod_lt _ hW
  rcases eq_or_ne (i / W) (j / W) with hd | hd
  · have hoff : i % W ≠ j % W := fun hm => hne (bit_index_inj hW hd hm).symm
    rw [← hd, getD_set_self hleni]
    simp [Nat.testBit_mod_two_pow, Nat.testBit_or, Nat.one_shiftLeft,
      Nat.testBit_two_pow_of_ne hoff, hoffj]
  · rw [getD_set_ne hd]

theorem test_clear_other {W : Nat} (hW : 0 < W) (data : List Nat) {i j : Nat}
    (hne : j ≠ i) (hleni : i / W < data.length) :
    test W (clear W data i) j = test W data j := by
  unfold test clear cppNot
  have hoffj : j % W < W := Nat.mod_lt _ hW
  rcases eq_or_ne (i / W) (j / W) with hd | hd
  · have hoff : i % W ≠ j % W := fun hm => hne (bit_index_inj hW hd hm).symm
    have hlt : 1 <<< (i % W) < 2 ^ W := by
      rw [Nat.one_shiftLeft]
      exact Nat.pow_lt_pow_right (by omega) (Nat.mod_lt _ hW)
    rw [← hd, getD_set_self hleni, Nat.mod_eq_of_lt hlt]
    simp [Nat.testBit_and, Nat.testBit_xor, Nat.testBit_two_pow_sub_one,
      Nat.one_shiftLeft, Nat.testBit_two_pow_of_ne hoff, hoffj]
  · rw [getD_set_ne hd]

theorem test_flip_other {W : Nat} (hW : 0 < W) (data : List Nat) {i j : Nat}
    (hne : j ≠ i) (hleni : i / W < data.length) :
    test W (flip W data i) j = test W data j := by
  unfold test flip
  have hoffj : j % W < W := Nat.mod_lt _ hW
  rcases eq_or_ne (i / W) (j / W) with hd | hd
  · have hoff : i % W ≠ j % W := fun hm => hne (bit_index_inj hW hd hm).symm
    rw [← hd, getD_set_self hleni]
    simp [Nat.testBit_mod_two_pow, Nat.testBit_xor, Nat.one_shiftLeft,
      Nat.testBit_two_pow_of_ne hoff, hoffj]
  · rw [getD_set_ne hd]

/-- Claim C1: for every valid bit index `i` of a `Size`-bit bitset backed by
`W`-bit blocks, `set(i); test(i)` yields `true`, `clear(i); test(i)` yields
`false`, `set(i, v); test(i)` yields `v`, and each of `set(i)`, `set(i, v)`,
`clear(i)`, `flip(i)` leaves every other bit `j < Size`, `j ≠ i` unchanged. -/
theorem C1_single_bit_ops {W Size : Nat} (hW : 0 < W) (data : List Nat)
    (hlen : data.length = storageSize W Size) {i : Nat} (hi : i < Size) :
    test W (set W data i) i = true ∧
    test W (clear W data i) i = false ∧
    (∀ v, test W (set_value W data i v) i = v) ∧
    test W (flip W data i) i = !test W data i ∧
    (∀ j, j < Size → j ≠ i →
      test W (set W data i) j = test W data j ∧
      test W (clear W data i) j = test W data j ∧
      (∀ v, test W (set_value W data i v) j = test W data j) ∧
      test W (flip W data i) j = test W data j) := by
  have hleni : i / W < data.length := hlen ▸ div_lt_storageSize hW hi
  refine ⟨test_set_self hW data hleni, test_clear_self hW data hleni, ?_,
    test_flip_self hW data hleni, ?_⟩
  · intro v
    cases v with
    | true => simpa [set_value] using test_set_self hW data hleni
    | false => simpa [set_value] using test_clear_self hW data hleni
  · intro j _ hne
    refine ⟨test_set_other hW data hne hleni, test_clear_other hW data hne hleni,
      ?_, test_flip_other hW data hne hleni⟩
    intro v
    cases v with
    | true => simpa [set_value] using test_set_other hW data hne hleni
    | false => simpa [set_value] using test_clear_other hW data hne hleni

/-- Witness for C1 at `W = 8`, `Size = 9`, blocks `[0x55, 0x00]`, `i = 3`. -/
theorem C1_single_bit_ops_witness :
    0 < 8 ∧ ([0x55, 0x00] : List Nat).length = storageSize 8 9 ∧ 3 < 9 ∧
      (test 8 (set 8 [0x55, 0x00] 3) 3 = true ∧
       test 8 (clear 8 [0x55, 0x00] 3) 3 = false ∧
       (∀ v, test 8 (set_value 8 [0x55, 0x00] 3 v) 3 = v) ∧
       test 8 (flip 8 [0x55, 0x00] 3) 3 = !test 8 [0x55, 0x00] 3 ∧
       (∀ j, j < 9 → j ≠ 3 →
         test 8 (set 8 [0x55, 0x00] 3) j = test 8 [0x55, 0x00] j ∧
         test 8 (clear 8 [0x55, 0x00] 3) j = test 8 [0x55, 0x00] j ∧
         (∀ v, test 8 (set_value 8 [0x55, 0x00] 3 v) j = test 8 [0x55, 0x00] j) ∧
         test 8 (flip 8 [0x55, 0x00] 3) j = test 8 [0x55, 0x00] j)) :=
  ⟨by decide, by decide, by decide,
    C1_single_bit_ops (by decide) [0x55, 0x00] (by decide) (by decide)⟩

theorem popcnt_zero : popcnt 0 = 0 := by
  rw [popcnt]
  simp

theorem popcnt_step {j : Nat} (h : j ≠ 0) : popcnt j = popcnt (j &&& (j - 1)) + 1 := by
  rw [popcnt]
  simp [h]

theorem land_two_mul_add_one_two_mul (x y : Nat) :
    (2 * x + 1) &&& (2 * y) = 2 * (x &&& y) := by
  apply Nat.eq_of_testBit_eq
  intro i
  cases i with
  | zero =>
    have h1 : (2 * y) % 2 = 0 := Nat.mul_mod_right 2 y
    have h2 : (2 * (x &&& y)) % 2 = 0 := Nat.mul_mod_right 2 _
    simp [Nat.testBit_and, Nat.testBit_zero, h1, h2]
  | succ i =>
    have e1 : (2 * x + 1) / 2 = x := by omega
    have e2 : (2 * y) / 2 = y := by omega
    have e3 : (2 * (x &&& y)) / 2 = x &&& y := by omega
    rw [Nat.testBit_and, Nat.testBit_succ, Nat.testBit_succ, Nat.testBit_succ,
      e1, e2, e3, Nat.testBit_and]

theorem popcnt_two_mul (m : Nat) : popcnt (2 * m) = popcnt m := by
  induction m using Nat.strong_induction_on with
  | _ m ih =>
    rcases eq_or_ne m 0 with h | h
    · subst h
      rfl
    · have hkey : (2 * m) &&& (2 * m - 1) = 2 * (m &&& (m - 1)) := by
        have h1 : 2 * m - 1 = 2 * (m - 1) + 1 := by omega
        rw [h1, Nat.and_comm, land_two_mul_add_one_two_mul, Nat.and_comm]
      have h2m : 2 * m ≠ 0 := by omega
      rw [popcnt_step h2m, hkey, ih (m &&& (m - 1)) (by
          have hle : m &&& (m - 1) ≤ m - 1 := Nat.and_le_right
          omega),
        ← popcnt_step h]

theorem popcnt_two_pow_sub_one (k : Nat) : popcnt (2 ^ k - 1) = k := by
  induction k with
  | zero => simpa using popcnt_zero
  | succ k ih =>
    have hpow : 0 < 2 ^ k := Nat.pos_pow_of_pos k (by omega)
    have hn : 2 ^ (k + 1) - 1 = 2 * (2 ^ k - 1) + 1 := by
      rw [Nat.pow_succ]
      omega
    have hn1 : 2 ^ (k + 1) - 1 - 1 = 2 * (2 ^ k - 1) := by
      rw [Nat.pow_succ]
      omega
    have hne : 2 ^ (k + 1) - 1 ≠ 0 := by
      have : (2:Nat) ^ (k + 1) = 2 * 2 ^ k := by rw [Nat.pow_succ, Nat.mul_comm]
      omega
    rw [popcnt_step hne, hn1, hn, land_two_mul_add_one_two_mul, Nat.and_self,
      popcnt_two_mul, ih]

/-- Counterexample for claim C5: on a 9-bit bitset with 8-bit blocks, `set()`
(fill all) also sets the 7 invalid trailing bits, so `count()` returns
`16 = 8 * ceil(9/8)`, not `9`. -/
theorem C5_count_after_set_cex :
    count (setAll 8 (List.replicate (storageSize 8 9) 0)) ≠ 9 := by
  have h255 : popcnt 255 = 8 := by
    have h := popcnt_two_pow_sub_one 8
    norm_num at h
    exact h
  have hrepl : List.replicate (storageSize 8 9) (0:Nat) = [0, 0] := rfl
  rw [hrepl]
  simp [count, setAll, h255]

/-- Claim C5 amended: after `set()` (fill all), `count()` returns
`W * storage_size = W * ceil(N / W)` (the invalid trailing bits of the last
block are filled too, and `count()` counts them); this equals `N` exactly when
`W` divides `N`. After `clear()`, `count()` returns `0`. -/
theorem C5_count_fill_amended {W Size : Nat} (data : List Nat)
    (hlen : data.length = storageSize W Size) :
    count (setAll W data) = W * storageSize W Size ∧
    count (clearAll data) = 0 ∧
    (Size % W = 0 → count (setAll W data) = Size) := by
  have hpc : popcnt (2 ^ W - 1) = W := popcnt_two_pow_sub_one W
  have hcount : count (setAll W data) = W * storageSize W Size := by
    rw [count, setAll, List.map_map]
    have hmap : (data.map (popcnt ∘ fun _ => 2 ^ W - 1)) =
        List.replicate data.length W := by
      rw [show (popcnt ∘ fun (_ : Nat) => 2 ^ W - 1) = fun _ => W from
        funext fun _ => hpc]
      exact List.map_const' data W
    rw [hmap, List.sum_replicate, smul_eq_mul, hlen, Nat.mul_comm]
  refine ⟨hcount, ?_, ?_⟩
  · rw [count, clearAll, List.map_map]
    have hmap : (data.map (popcnt ∘ fun _ => 0)) = List.replicate data.length 0 := by
      rw [show (popcnt ∘ fun (_ : Nat) => 0) = fun _ => 0 from
        funext fun _ => popcnt_zero]
      exact List.map_const' data 0
    rw [hmap, List.sum_replicate, smul_eq_mul, Nat.mul_zero]
  · intro hdvd
    rw [hcount, storageSize, if_pos hdvd, Nat.add_zero]
    exact Nat.mul_div_cancel' (Nat.dvd_of_mod_eq_zero hdvd)

/-- Witness for the amended C5 at `W = 8`, `Size = 16`, blocks `[0, 0]`. -/
theorem C5_count_fill_amended_witness :
    ([0, 0] : List Nat).length = storageSize 8 16 ∧
      (count (setAll 8 [0, 0]) = 8 * storageSize 8 16 ∧
       count (clearAll [0, 0]) = 0 ∧
       (16 % 8 = 0 → count (setAll 8 [0, 0]) = 16)) :=
  ⟨by decide, C5_count_fill_amended [0, 0] (by decide)⟩

/-- Claim C6 refuted on the code: with 8-bit blocks and `Size = 16`, the bitsets
with blocks `[0x00, 0x01]` and `[0x00, 0x02]` satisfy both `(a == b) = false`
and `(a != b) = false`, because `operator!=` returns `false` as soon as one
full block compares equal. So `!=` is not the negation of `==`. -/
theorem C6_bne_not_negation_of_beq :
    beq_op 8 16 [0x00, 0x01] [0x00, 0x02] = false ∧
    bne_op 8 16 [0x00, 0x01] [0x00, 0x02] = false := by
  constructor <;> decide

/-- Claim C7 refuted on the code: on a 16-bit bitset with 8-bit blocks holding
blocks `[0x01, 0x00]`, the in-place `operator<<=` with shift `W = 8` yields
`[0x00, 0x00]` (it reads block 0 after having overwritten it) instead of moving
block 0 into block 1 the way the out-of-place `operator<<` does. Shifts by `0`
and whole-array displacements do behave as claimed for both operators. -/
theorem C7_shl_assign_aliasing :
    shlAssign 8 [0x01, 0x00] 8 = [0x00, 0x00] ∧
    shl 8 [0x01, 0x00] 8 = [0x00, 0x01] ∧
    shlAssign 8 [0x01, 0x00] 0 = [0x01, 0x00] ∧
    shl 8 [0x01, 0x00] 0 = [0x01, 0x00] ∧
    shlAssign 8 [0x01, 0x02] 16 = [0x00, 0x00] ∧
    shl 8 [0x01, 0x02] 16 = [0x00, 0x00] := by
  refine ⟨by decide, by decide, by decide, by decide, by decide, by decide⟩

/-- Claim C2 refuted on the code: on an 8-bit all-zero `dynamic_bitset<uint8_t>`,
`set_range(0, 5)` touches nothing. `begin` is block-aligned, so the leading
bit loop is skipped; `begin/8 == end/8`, so the trailing bit loop is skipped
too; and the bulk `memset` length is `(5-0)/8 = 0` bytes. Every `k` in `[0,5)`
still tests `false` afterwards. -/
theorem C2_set_range_aligned_head_noop :
    set_range8 [0x00] 0 5 = some [0x00] ∧
    (∀ k, k < 5 → test 8 [0x00] k = false) := by
  constructor <;> decide

/-- Claim C3 refuted on the code: `push_back` on a dynamic bitset whose size is
block-aligned (here size 8, `W = 8`) takes the growth branch, sets
`m_partial_size = 0`, and then computes the destination bit offset as
`m_partial_size - 1 = -1`: an undefined shift, so `test(size()-1) == v` cannot
hold. Moreover `pop_back` on a bitset of size 9 (the size a successful
`push_back` from 8 would produce) decrements `m_size` twice and yields size 7,
not 8. -/
theorem C3_push_pop_block_boundary :
    dynamic_bitset.push_back 8 (dynamic_bitset.ofSize 8 8) true = none ∧
    dynamic_bitset.push_back 8 (dynamic_bitset.ofSize 8 8) false = none ∧
    (dynamic_bitset.pop_back 8
      { m_part_size := 1, m_storage_size := 2, m_size := 9,
        m_data := some [0x00, 0x01] }).m_size = 7 ∧
    (dynamic_bitset.pop_back 8
      { m_part_size := 1, m_storage_size := 2, m_size := 9,
        m_data := some [0x00, 0x01] }).m_storage_size = 1 := by
  refine ⟨rfl, rfl, by decide, by decide⟩

/-- Claim C4 refuted on the code: `pop_back` on a 1-bit dynamic bitset wraps
`m_size` around to `2^64 - 1` (the aligned branch decrements `m_size` twice)
while `m_storage_size` becomes `0` and `m_data` becomes null, so
`storage_size == ceil(size / W)` fails and `data == null` no longer coincides
with `size == 0`. Independently, `pop_back_block` on a one-block bitset reaches
`size == 0` with a non-null (zero-length) allocation in `m_data`. -/
theorem C4_invariant_violated :
    (dynamic_bitset.pop_back 8 (dynamic_bitset.ofSize 8 1)).m_size = U64 - 1 ∧
    (dynamic_bitset.pop_back 8 (dynamic_bitset.ofSize 8 1)).m_storage_size = 0 ∧
    (dynamic_bitset.pop_back 8 (dynamic_bitset.ofSize 8 1)).m_data = none ∧
    storageSize 8 (U64 - 1) ≠ 0 ∧
    (dynamic_bitset.pop_back_block 8 (dynamic_bitset.ofSize 8 8)).m_size = 0 ∧
    (dynamic_bitset.pop_back_block 8 (dynamic_bitset.ofSize 8 8)).m_data = some [] := by
  refine ⟨by decide, by decide, by decide, by decide, by decide, by decide⟩

theorem getD_replicate_zero (n k : Nat) : (List.replicate n (0:Nat)).getD k 0 = 0 := by
  induction n generalizing k with
  | zero => simp
  | succ n ih =>
    cases k with
    | zero => rfl
    | succ m => exact ih m

/-- Claim C10: `dynamic_bitset(n)` zero-initializes: every bit `i < n` tests
`false`, `count()` is `0`, and `none()` is `true` right after construction. -/
theorem C10_size_ctor_zero_init (W n : Nat) {i : Nat} (hi : i < n) :
    dynamic_bitset.test W (dynamic_bitset.ofSize W n) i = false ∧
    dynamic_bitset.count (dynamic_bitset.ofSize W n) = 0 ∧
    dynamic_bitset.noneOp W (dynamic_bitset.ofSize W n) = true := by
  refine ⟨?_, ?_, ?_⟩
  · simp [dynamic_bitset.test, dynamic_bitset.ofSize, getD_replicate_zero]
  · simp [dynamic_bitset.count, dynamic_bitset.ofSize, List.map_replicate,
      popcnt_zero, List.sum_replicate]
  · simp only [dynamic_bitset.noneOp, dynamic_bitset.ofSize, Option.getD_some,
      Bool.and_eq_true, List.all_eq_true]
    constructor
    · intro x _
      simp [getD_replicate_zero]
    · split
      · simp [getD_replicate_zero]
      · rfl

/-- Witness for C10 at `W = 8`, `n = 10`, `i = 3`. -/
theorem C10_size_ctor_zero_init_witness :
    3 < 10 ∧
      (dynamic_bitset.test 8 (dynamic_bitset.ofSize 8 10) 3 = false ∧
       dynamic_bitset.count (dynamic_bitset.ofSize 8 10) = 0 ∧
       dynamic_bitset.noneOp 8 (dynamic_bitset.ofSize 8 10) = true) :=
  ⟨by decide, C10_size_ctor_zero_init 8 10 (by decide)⟩

/-- Claim C8 refuted on the code: take `W = 8`, `Size = 9` and the bit string
`"000000001"` (bit 8 set). `_from_string` stores blocks `[0x00, 0x01]`, but
`to_string` emits a string of length `Size + 1 = 10` whose last element is the
NUL character, and its trailing-block loop reads `m_data[i]` (block 0) instead
of the last block, so character 8 comes out `'0'`. The round trip does not
return the original string. -/
theorem C8_round_trip_fails :
    from_string 8 9 ['0', '0', '0', '0', '0', '0', '0', '0', '1'] '1' = [0x00, 0x01] ∧
    to_string 8 9 (from_string 8 9 ['0', '0', '0', '0', '0', '0', '0', '0', '1'] '1') '1' '0'
      = ['0', '0', '0', '0', '0', '0', '0', '0', '0', Char.ofNat 0] ∧
    to_string 8 9 (from_string 8 9 ['0', '0', '0', '0', '0', '0', '0', '0', '1'] '1') '1' '0'
      ≠ ['0', '0', '0', '0', '0', '0', '0', '0', '1'] := by
  refine ⟨by decide, by decide, by decide⟩

theorem innerLoop_length (g : Nat → Nat → Nat) (B C i : Nat) :
    ∀ fuel j d, ((innerLoop (orBody g) B C i fuel j d).1).length = d.length := by
  intro fuel
  induction fuel with
  | zero => intro j d; rfl
  | succ fuel ih =>
    intro j d
    by_cases h : C ≤ i * B + j
    · simp only [innerLoop, if_pos h]
    · simp only [innerLoop, if_neg h]
      rw [ih]
      exact List.length_set ..

theorem innerLoop_getD_ne (g : Nat → Nat → Nat) (B C i m : Nat) (hm : m ≠ i) :
    ∀ fuel j d, ((innerLoop (orBody g) B C i fuel j d).1).getD m 0 = d.getD m 0 := by
  intro fuel
  induction fuel with
  | zero => intro j d; rfl
  | succ fuel ih =>
    intro j d
    by_cases h : C ≤ i * B + j
    · simp only [innerLoop, if_pos h]
    · simp only [innerLoop, if_neg h]
      rw [ih, orBody, getD_set_ne (Ne.symm hm)]

theorem foldl_guard_noop (g : Nat → Nat → Nat) (B C m : Nat) :
    ∀ n j a, C ≤ m * B + j →
      (List.range' j n 1).foldl
        (fun acc j' => if m * B + j' < C then acc ||| g m j' else acc) a = a := by
  intro n
  induction n with
  | zero => intro j a _; rfl
  | succ n ih =>
    intro j a h
    rw [List.range'_succ, List.foldl_cons, if_neg (by omega)]
    exact ih (j + 1) a (by omega)

theorem innerLoop_getD_self (g : Nat → Nat → Nat) (B C i : Nat) :
    ∀ fuel j d, i < d.length →
      ((innerLoop (orBody g) B C i fuel j d).1).getD i 0 =
        (List.range' j fuel 1).foldl
          (fun acc j' => if i * B + j' < C then acc ||| g i j' else acc)
          (d.getD i 0) := by
  intro fuel
  induction fuel with
  | zero => intro j d _; rfl
  | succ fuel ih =>
    intro j d hd
    by_cases h : C ≤ i * B + j
    · simp only [innerLoop, if_pos h]
      rw [foldl_guard_noop g B C i (fuel + 1) j _ h]
    · simp only [innerLoop, if_neg h]
      rw [ih (j + 1) _ (by rw [orBody]; simpa using hd), List.range'_succ,
        List.foldl_cons, if_pos (by omega), orBody, getD_set_self hd]

theorem innerLoop_flag (g : Nat → Nat → Nat) (B C i : Nat) :
    ∀ fuel j d, ((innerLoop (orBody g) B C i fuel j d).2) =
      decide (0 < fuel ∧ C < i * B + j + fuel) := by
  intro fuel
  induction fuel with
  | zero => intro j d; simp [innerLoop]
  | succ fuel ih =>
    intro j d
    by_cases h : C ≤ i * B + j
    · simp only [innerLoop, if_pos h]
      symm
      rw [decide_eq_true_eq]
      exact ⟨by omega, by omega⟩
    · simp only [innerLoop, if_neg h, ih]
      rw [decide_eq_decide]
      omega

theorem outerLoop_spec (g : Nat → Nat → Nat) (B C : Nat) :
    ∀ fuel i d, d.length = i + fuel → (∀ m, i ≤ m → d.getD m 0 = 0) →
      ∀ m,
        (m < i → (outerLoop (orBody g) B C fuel i d).getD m 0 = d.getD m 0) ∧
        (i ≤ m → m < i + fuel →
          (outerLoop (orBody g) B C fuel i d).getD m 0 =
            (List.range' 0 B 1).foldl
              (fun acc j' => if m * B + j' < C then acc ||| g m j' else acc) 0) := by
  intro fuel
  induction fuel with
  | zero =>
    intro i d _ _ m
    exact ⟨fun _ => rfl, fun h1 h2 => absurd h2 (by omega)⟩
  | succ fuel ih =>
    intro i d hlen hz m
    have hid : i < d.length := by omega
    rcases hres : innerLoop (orBody g) B C i B 0 d with ⟨d', fl⟩
    have hd'1 : d' = (innerLoop (orBody g) B C i B 0 d).1 := by rw [hres]
    have hfl : fl = decide (0 < B ∧ C < i * B + 0 + B) := by
      rw [show fl = (innerLoop (orBody g) B C i B 0 d).2 from by rw [hres]]
      exact innerLoop_flag g B C i B 0 d
    have hlen' : d'.length = d.length := by rw [hd'1]; exact innerLoop_length ..
    have hne : ∀ m', m' ≠ i → d'.getD m' 0 = d.getD m' 0 := by
      intro m' hm'
      rw [hd'1]
      exact innerLoop_getD_ne g B C i m' hm' B 0 d
    have hself : d'.getD i 0 =
        (List.range' 0 B 1).foldl
          (fun acc j' => if i * B + j' < C then acc ||| g i j' else acc) 0 := by
      rw [hd'1, innerLoop_getD_self g B C i B 0 d hid, hz i (le_refl i)]
    cases fl with
    | true =>
      have habort : 0 < B ∧ C < i * B + 0 + B := by
        have := hfl.symm
        rwa [decide_eq_true_eq] at this
      have hout : outerLoop (orBody g) B C (fuel + 1) i d = d' := by
        rw [outerLoop, hres]
      rw [hout]
      refine ⟨fun hm => hne m (by omega), fun h1 h2 => ?_⟩
      rcases eq_or_ne m i with rfl | hmi
      · exact hself
      · rw [hne m hmi, hz m h1]
        symm
        apply foldl_guard_noop
        have he : (i + 1) * B = i * B + B := by ring
        have hle : (i + 1) * B ≤ m * B := Nat.mul_le_mul_right _ (by omega)
        omega
    | false =>
      have hout : outerLoop (orBody g) B C (fuel + 1) i d =
          outerLoop (orBody g) B C fuel (i + 1) d' := by
        rw [outerLoop, hres]
      rw [hout]
      have hz' : ∀ m', i + 1 ≤ m' → d'.getD m' 0 = 0 := by
        intro m' hm'
        rw [hne m' (by omega)]
        exact hz m' (by omega)
      have hih := ih (i + 1) d' (by omega) hz'
      refine ⟨fun hm => ?_, fun h1 h2 => ?_⟩
      · rw [(hih m).1 (by omega), hne m (by omega)]
      · rcases eq_or_ne m i with rfl | hmi
        · rw [(hih m).1 (by omega)]
          exact hself
        · exact (hih m).2 (by omega) (by omega)

/-- Claim C9: converting to a wider block type packs `diff` consecutive source
blocks into each destination block, source block `i*diff + j` contributing its
bits at offset `j * Wsrc`; the loop stops silently once the source is
exhausted, leaving the remaining (zero-initialized) destination blocks
untouched — which is exactly the `packWiden` formula. -/
theorem C9_from_other_widen_packs (Wsrc diff : Nat) (src : List Nat)
    (dstLen : Nat) {i : Nat} (hi : i < dstLen) :
    (from_other_widen Wsrc diff src dstLen).getD i 0 = packWiden Wsrc diff src i := by
  have h := (outerLoop_spec (fun i j => src.getD (i * diff + j) 0 <<< (j * Wsrc))
    diff src.length dstLen 0 (List.replicate dstLen 0) (by simp)
    (fun m _ => getD_replicate_zero _ _) i).2 (Nat.zero_le _) (by omega)
  rw [from_other_widen, h, packWiden, List.range_eq_range']

/-- Witness for C9: the claim's own instance — 8-bit source blocks
`[0x01, 0x02]` (16 bits) into one 16-bit destination block, which comes out as
`0x0201`. -/
theorem C9_from_other_widen_packs_witness :
    0 < 1 ∧
      (from_other_widen 8 2 [0x01, 0x02] 1).getD 0 0 = packWiden 8 2 [0x01, 0x02] 0 ∧
      packWiden 8 2 [0x01, 0x02] 0 = 0x0201 :=
  ⟨by decide, C9_from_other_widen_packs 8 2 [0x01, 0x02] 1 (by decide), by decide⟩

end Woj
